import Mathlib

/-! # UpdateFlags of `deal.II/fe/fe_update_flags.h`

A shallow embedding of the enumeration `UpdateFlags`, of the global operators
on it (`|`, `|=`, `&`, `&=`, `<<`) and of the data stores declared in the
header, followed by the properties proved about them.

A value of the enumeration is stored in an `unsigned int`; it is modelled by
the natural number of its bit pattern together with the 32-bit bound.
-/

namespace dealii

/-- Number of bits of `unsigned int`. -/
def unsigned_bits : Nat := 32

/-- A value of `enum UpdateFlags`: the bit pattern held in an `unsigned int`. -/
structure UpdateFlags where
  val : Nat
  isLt : val < 2 ^ unsigned_bits
  deriving DecidableEq

namespace UpdateFlags

/-- The conversion `static_cast<unsigned int> (f)`. -/
def static_cast_unsigned (f : UpdateFlags) : Nat := f.val % 2 ^ unsigned_bits

/-- The conversion `static_cast<UpdateFlags> (u)` of an unsigned value. -/
def static_cast_UpdateFlags (u : Nat) : UpdateFlags :=
  ⟨u % 2 ^ unsigned_bits, Nat.mod_lt u (Nat.two_pow_pos unsigned_bits)⟩

/-- Bit `i` of the flag set `f` is set. -/
def testBit (f : UpdateFlags) (i : Nat) : Bool := f.val.testBit i

/-- The contextual conversion to `bool` in `if (u & flag)`: non-zero is true. -/
def toBool (f : UpdateFlags) : Bool := f.val != 0

end UpdateFlags

open UpdateFlags

/-! ## The enumerators -/

def update_default : UpdateFlags := ⟨0, by decide⟩
def update_values : UpdateFlags := ⟨0x0001, by decide⟩
def update_gradients : UpdateFlags := ⟨0x0002, by decide⟩
def update_hessians : UpdateFlags := ⟨0x0004, by decide⟩
def update_boundary_forms : UpdateFlags := ⟨0x0008, by decide⟩
def update_quadrature_points : UpdateFlags := ⟨0x0010, by decide⟩
def update_JxW_values : UpdateFlags := ⟨0x0020, by decide⟩
def update_normal_vectors : UpdateFlags := ⟨0x0040, by decide⟩
def update_face_normal_vectors : UpdateFlags := update_normal_vectors
def update_cell_normal_vectors : UpdateFlags := update_normal_vectors
def update_jacobians : UpdateFlags := ⟨0x0080, by decide⟩
def update_jacobian_grads : UpdateFlags := ⟨0x0100, by decide⟩
def update_inverse_jacobians : UpdateFlags := ⟨0x0200, by decide⟩
def update_covariant_transformation : UpdateFlags := ⟨0x0400, by decide⟩
def update_contravariant_transformation : UpdateFlags := ⟨0x0800, by decide⟩
def update_transformation_values : UpdateFlags := ⟨0x1000, by decide⟩
def update_transformation_gradients : UpdateFlags := ⟨0x2000, by decide⟩
def update_volume_elements : UpdateFlags := ⟨0x4000, by decide⟩
def update_support_points : UpdateFlags := ⟨0x10000, by decide⟩
def update_support_jacobians : UpdateFlags := ⟨0x20000, by decide⟩
def update_support_inverse_jacobians : UpdateFlags := ⟨0x40000, by decide⟩
def update_q_points : UpdateFlags := update_quadrature_points
def update_second_derivatives : UpdateFlags := update_hessians

/-- The enumerator `update_piola`; inside the enumeration its initialiser
`update_volume_elements | update_contravariant_transformation` is the built-in
bit-or of the two enumerator values. -/
def update_piola : UpdateFlags :=
  ⟨update_volume_elements.val ||| update_contravariant_transformation.val, by decide⟩

/-! ## The global operators -/

/-- The operator `UpdateFlags operator | (UpdateFlags f1, UpdateFlags f2)`. -/
def operator_or (f1 f2 : UpdateFlags) : UpdateFlags :=
  static_cast_UpdateFlags (static_cast_unsigned f1 ||| static_cast_unsigned f2)

/-- The operator `UpdateFlags operator & (UpdateFlags f1, UpdateFlags f2)`. -/
def operator_and (f1 f2 : UpdateFlags) : UpdateFlags :=
  static_cast_UpdateFlags (static_cast_unsigned f1 &&& static_cast_unsigned f2)

/-- The operator `UpdateFlags & operator |= (UpdateFlags &f1, UpdateFlags f2)`.
The first component is the content of the variable `f1` after the call, the
second the value read through the returned reference. -/
def operator_or_assign (f1 f2 : UpdateFlags) : UpdateFlags × UpdateFlags :=
  let f1 := operator_or f1 f2
  (f1, f1)

/-- The operator `UpdateFlags & operator &= (UpdateFlags &f1, UpdateFlags f2)`,
with the same reading of the two components as for `operator_or_assign`. -/
def operator_and_assign (f1 f2 : UpdateFlags) : UpdateFlags × UpdateFlags :=
  let f1 := operator_and f1 f2
  (f1, f1)

/-- The union of all enumerators of `UpdateFlags`. -/
def all_named_flags : UpdateFlags :=
  [update_default, update_values, update_gradients, update_hessians,
   update_boundary_forms, update_quadrature_points, update_JxW_values,
   update_normal_vectors, update_face_normal_vectors, update_cell_normal_vectors,
   update_jacobians, update_jacobian_grads, update_inverse_jacobians,
   update_covariant_transformation, update_contravariant_transformation,
   update_transformation_values, update_transformation_gradients,
   update_volume_elements, update_support_points, update_support_jacobians,
   update_support_inverse_jacobians, update_q_points, update_second_derivatives,
   update_piola].foldl operator_or update_default

/-- The enumerators of `UpdateFlags` other than `update_default`, the
deprecated aliases and the composite `update_piola`, in the order of the
enumeration. -/
def primitive_flags : List UpdateFlags :=
  [update_values, update_gradients, update_hessians, update_boundary_forms,
   update_quadrature_points, update_JxW_values, update_normal_vectors,
   update_jacobians, update_jacobian_grads, update_inverse_jacobians,
   update_covariant_transformation, update_contravariant_transformation,
   update_transformation_values, update_transformation_gradients,
   update_volume_elements, update_support_points, update_support_jacobians,
   update_support_inverse_jacobians]

/-- The output operator `STREAM & operator << (STREAM &s, UpdateFlags u)`; the
stream is the text written to it so far. -/
def operator_shl (s : String) (u : UpdateFlags) : String :=
  let s := s ++ " UpdateFlags|"
  let s := if (operator_and u update_values).toBool then s ++ "values|" else s
  let s := if (operator_and u update_gradients).toBool then s ++ "gradients|" else s
  let s := if (operator_and u update_hessians).toBool then s ++ "hessians|" else s
  let s := if (operator_and u update_quadrature_points).toBool then s ++ "quadrature_points|" else s
  let s := if (operator_and u update_JxW_values).toBool then s ++ "JxW_values|" else s
  let s := if (operator_and u update_normal_vectors).toBool then s ++ "normal_vectors|" else s
  let s := if (operator_and u update_jacobians).toBool then s ++ "jacobians|" else s
  let s := if (operator_and u update_inverse_jacobians).toBool then s ++ "inverse_jacobians|" else s
  let s := if (operator_and u update_jacobian_grads).toBool then s ++ "jacobian_grads|" else s
  let s := if (operator_and u update_covariant_transformation).toBool then s ++ "covariant_transformation|" else s
  let s := if (operator_and u update_contravariant_transformation).toBool then s ++ "contravariant_transformation|" else s
  let s := if (operator_and u update_transformation_values).toBool then s ++ "transformation_values|" else s
  let s := if (operator_and u update_transformation_gradients).toBool then s ++ "transformation_gradients|" else s
  let s := if (operator_and u update_support_points).toBool then s ++ "support_points|" else s
  let s := if (operator_and u update_support_jacobians).toBool then s ++ "support_jacobians|" else s
  let s := if (operator_and u update_support_inverse_jacobians).toBool then s ++ "support_inverse_jacobians|" else s
  s

/-- The text `t` occurs in the text `s`. -/
def occurs_in (t s : String) : Prop := t.data <:+: s.data

instance (t s : String) : Decidable (occurs_in t s) := by
  unfold occurs_in; infer_instance

/-! ## Operations that can be written with the provided operators -/

/-- An expression over two flag-set arguments built from what the header
provides for `UpdateFlags`: the enumerators and other constants, `operator |`
and `operator &` (`|=` and `&=` compute the same two functions). -/
inductive FlagExpr where
  | f1 : FlagExpr
  | f2 : FlagExpr
  | const : UpdateFlags → FlagExpr
  | or : FlagExpr → FlagExpr → FlagExpr
  | and : FlagExpr → FlagExpr → FlagExpr

/-- The value of an expression at the arguments `a1` and `a2`. -/
def FlagExpr.eval (a1 a2 : UpdateFlags) : FlagExpr → UpdateFlags
  | .f1 => a1
  | .f2 => a2
  | .const c => c
  | .or a b => operator_or (a.eval a1 a2) (b.eval a1 a2)
  | .and a b => operator_and (a.eval a1 a2) (b.eval a1 a2)

/-! ## Flag resolution -/

/-- What the resolution asks of a collaborator (a finite element or a
mapping): the functions `update_once (flags)` and `update_each (flags)`. -/
structure Collaborator where
  update_once : UpdateFlags → UpdateFlags
  update_each : UpdateFlags → UpdateFlags

/-- The two flag sets produced by resolution. -/
structure ResolvedRequirements where
  once : UpdateFlags
  each : UpdateFlags

/-- Modelled from the spec: the body of `FEValuesBase::compute_update_flags`
is not part of the header. The flags set by the user are first enlarged by
all flags (once and each) added by the finite element; the enlarged set is
given to the mapping and all flags required there are added, again once and
each. -/
def compute_update_flags (flags : UpdateFlags) (fe mapping : Collaborator) : UpdateFlags :=
  let flags := operator_or (operator_or flags (fe.update_once flags)) (fe.update_each flags)
  let flags := operator_or flags
    (operator_or (mapping.update_once flags) (mapping.update_each flags))
  flags

/-- Modelled from the spec: the bits of `needed` that are not in `claimed`;
the header has no operator for it. -/
def unclaimed_bits (needed claimed : UpdateFlags) : UpdateFlags :=
  static_cast_UpdateFlags (needed.val ^^^ (needed.val &&& claimed.val))

/-- Modelled from the spec: the resolution protocol, whose code is not part
of the header. Steps 1 to 3 accumulate `needed` from the user flags, the
element and the mapping; step 5 splits the final `needed`: a bit goes where
the collaborator that contributed it classified it, and a bit claimed by
neither collaborator defaults to `each`. -/
def resolve (userFlags : UpdateFlags) (element mapping : Collaborator) :
    ResolvedRequirements :=
  let needed := userFlags
  let element_once := element.update_once needed
  let element_each := element.update_each needed
  let needed := operator_or needed (operator_or element_once element_each)
  let mapping_once := mapping.update_once needed
  let mapping_each := mapping.update_each needed
  let needed := operator_or needed (operator_or mapping_once mapping_each)
  let claimed_once := operator_or element_once mapping_once
  let claimed_each := operator_or element_each mapping_each
  { once := operator_and needed claimed_once
    each := operator_or (operator_and needed claimed_each)
      (unclaimed_bits needed (operator_or claimed_once claimed_each)) }

/-! ## The geometric data store -/

namespace internal
namespace FEValues

/-- The class `MappingRelatedData<dim,spacedim>`: one array per quantity. The
element types (`double`, `DerivativeForm`, `Point`, `Tensor`) are parameters. -/
structure MappingRelatedData (R J G I P T : Type) where
  JxW_values : List R
  jacobians : List J
  jacobian_grads : List G
  inverse_jacobians : List I
  quadrature_points : List P
  normal_vectors : List T
  boundary_forms : List T

/-- Modelled from the spec: how one array is sized. With the governing flag
set the array gets exactly `n` entries (an array that already has `n` entries
is used again, any other content is discarded); with the flag not set the
array is left empty. -/
def size_array {α : Type} [Inhabited α] (xs : List α) (n : Nat) (flag : UpdateFlags) : List α :=
  if flag.toBool then
    if xs.length = n then xs else List.replicate n default
  else []

/-- Modelled from the spec: the member function
`MappingRelatedData::initialize (n_quadrature_points, flags)`, which the header
declares and does not define. Every array is sized by its governing flag. -/
def MappingRelatedData.initialize_vectors {R J G I P T : Type}
    [Inhabited R] [Inhabited J] [Inhabited G] [Inhabited I] [Inhabited P] [Inhabited T]
    (d : MappingRelatedData R J G I P T) (n_quadrature_points : Nat)
    (flags : UpdateFlags) : MappingRelatedData R J G I P T :=
  { JxW_values := size_array d.JxW_values n_quadrature_points
      (operator_and flags update_JxW_values)
    jacobians := size_array d.jacobians n_quadrature_points
      (operator_and flags update_jacobians)
    jacobian_grads := size_array d.jacobian_grads n_quadrature_points
      (operator_and flags update_jacobian_grads)
    inverse_jacobians := size_array d.inverse_jacobians n_quadrature_points
      (operator_and flags update_inverse_jacobians)
    quadrature_points := size_array d.quadrature_points n_quadrature_points
      (operator_and flags update_quadrature_points)
    normal_vectors := size_array d.normal_vectors n_quadrature_points
      (operator_and flags update_normal_vectors)
    boundary_forms := size_array d.boundary_forms n_quadrature_points
      (operator_and flags update_boundary_forms) }

/-! ## The shape function data store -/

/-- Modelled from the spec: the constant `numbers::invalid_unsigned_int`, which
the header uses and does not define; the sentinel for an absent row, the
largest value of `unsigned int`. -/
def invalid_unsigned_int : Nat := 2 ^ unsigned_bits - 1

/-- Modelled from the spec: what the store reads from a finite element, whose
class the header only declares: the number of vector components and, for each
shape function, the pattern telling which components are not identically
zero. -/
structure FiniteElement where
  n_components : Nat
  nonzero_components : List (List Bool)

/-- The number of shape functions of the element. -/
def FiniteElement.dofs_per_cell (fe : FiniteElement) : Nat :=
  fe.nonzero_components.length

/-- Component `c` of shape function `i` is not identically zero. -/
def FiniteElement.is_nonzero (fe : FiniteElement) (i c : Nat) : Bool :=
  (fe.nonzero_components.getD i []).getD c false

/-- Shape function `i` is primitive for every `i`: exactly one component of
each pattern is non-zero. -/
def FiniteElement.is_primitive (fe : FiniteElement) : Prop :=
  ∀ p ∈ fe.nonzero_components, p.count true = 1

instance (fe : FiniteElement) : Decidable fe.is_primitive := by
  unfold FiniteElement.is_primitive; infer_instance

/-- The number of rows taken by the shape functions before shape function
`i`: one for each of their non-zero components. -/
def rows_before (ps : List (List Bool)) (i : Nat) : Nat :=
  ((ps.take i).map (fun p => p.count true)).sum

/-- Modelled from the spec: the rows of one shape function. Its components are
visited in increasing order; a non-zero component gets the next free row, a
zero component gets the sentinel. -/
def component_rows : Nat → List Bool → List Nat
  | _, [] => []
  | row, true :: cs => row :: component_rows (row + 1) cs
  | row, false :: cs => invalid_unsigned_int :: component_rows row cs

/-- Modelled from the spec: the row compaction. Shape functions are processed
in index order starting from the free row `row`; each one takes one row per
non-zero component. -/
def build_rows : Nat → List (List Bool) → List Nat
  | _, [] => []
  | row, p :: ps => component_rows row p ++ build_rows (row + p.count true) ps

/-- Modelled from the spec: the construction of `shape_function_to_row_table`,
whose code is not part of the header. An element whose declared component
count disagrees with the size of one of its patterns is a configuration error,
reported as `none`. -/
def make_shape_function_to_row_table (fe : FiniteElement) : Option (List Nat) :=
  if fe.nonzero_components.all (fun p => p.length == fe.n_components) then
    some (build_rows 0 fe.nonzero_components)
  else none

/-- A primitive element with three shape functions and two components. -/
def primitive_element_3x2 : FiniteElement :=
  ⟨2, [[true, false], [false, true], [true, false]]⟩

/-- An element with two components and one pattern without a non-zero
component. -/
def zero_pattern_element : FiniteElement := ⟨2, [[false, false]]⟩

/-- An element with three components: a shape function that is non-zero in
two components, one whose pattern has no non-zero component and a primitive
one. -/
def mixed_element_3x3 : FiniteElement :=
  ⟨3, [[true, false, true], [false, false, false], [false, true, false]]⟩

end FEValues
end internal

end dealii

/-! # Properties -/

namespace dealii

open UpdateFlags

/-! ## Auxiliary facts on the bit patterns -/

theorem UpdateFlags.eq_of_val_eq {a b : UpdateFlags} (h : a.val = b.val) : a = b := by
  cases a; cases b; cases h; rfl

theorem UpdateFlags.static_cast_unsigned_eq (f : UpdateFlags) :
    static_cast_unsigned f = f.val := by
  unfold static_cast_unsigned
  exact Nat.mod_eq_of_lt f.isLt

theorem val_operator_or (f1 f2 : UpdateFlags) :
    (operator_or f1 f2).val = f1.val ||| f2.val := by
  unfold operator_or static_cast_UpdateFlags
  simp only [static_cast_unsigned_eq]
  exact Nat.mod_eq_of_lt (Nat.or_lt_two_pow f1.isLt f2.isLt)

theorem val_operator_and (f1 f2 : UpdateFlags) :
    (operator_and f1 f2).val = f1.val &&& f2.val := by
  unfold operator_and static_cast_UpdateFlags
  simp only [static_cast_unsigned_eq]
  exact Nat.mod_eq_of_lt (Nat.and_lt_two_pow f1.val f2.isLt)

theorem testBit_operator_or (f1 f2 : UpdateFlags) (i : Nat) :
    (operator_or f1 f2).testBit i = (f1.testBit i || f2.testBit i) := by
  simp only [UpdateFlags.testBit, val_operator_or, Nat.testBit_or]

theorem testBit_operator_and (f1 f2 : UpdateFlags) (i : Nat) :
    (operator_and f1 f2).testBit i = (f1.testBit i && f2.testBit i) := by
  simp only [UpdateFlags.testBit, val_operator_and, Nat.testBit_and]

theorem UpdateFlags.eq_of_testBit_eq {a b : UpdateFlags}
    (h : ∀ i, a.testBit i = b.testBit i) : a = b :=
  UpdateFlags.eq_of_val_eq (Nat.eq_of_testBit_eq h)

/-- Containment `f & g == g` read bit by bit. -/
theorem contains_iff_bits (f g : UpdateFlags) :
    operator_and f g = g ↔ ∀ i, g.testBit i = true → f.testBit i = true := by
  constructor
  · intro h i hg
    have hi := testBit_operator_and f g i
    rw [h, hg] at hi
    simpa using hi.symm
  · intro h
    apply UpdateFlags.eq_of_testBit_eq
    intro i
    rw [testBit_operator_and]
    cases hg : g.testBit i
    · simp
    · simp [h i hg]

/-! ## The operators `|`, `&`, `|=`, `&=` -/

/-- C1: for every pair of flag sets `f1`, `f2` the result of `operator |` has a
bit set exactly when it is set in `f1` or in `f2`, it is the bitwise union of
the underlying unsigned values, and
`update_values | update_quadrature_points | update_JxW_values` is `0x0031`. -/
theorem operator_or_is_union (f1 f2 : UpdateFlags) :
    (∀ i, (operator_or f1 f2).testBit i = (f1.testBit i || f2.testBit i)) ∧
    static_cast_unsigned (operator_or f1 f2)
      = static_cast_unsigned f1 ||| static_cast_unsigned f2 ∧
    (operator_or (operator_or update_values update_quadrature_points)
      update_JxW_values).val = 0x0031 := by
  refine ⟨testBit_operator_or f1 f2, ?_, by decide⟩
  simp only [static_cast_unsigned_eq, val_operator_or]

/-- C2: for every pair of flag sets `f1`, `f2` the result of `operator &` has a
bit set exactly when it is set in `f1` as well as in `f2`, and it is the
bitwise intersection of the underlying unsigned values. -/
theorem operator_and_is_intersection (f1 f2 : UpdateFlags) :
    (∀ i, (operator_and f1 f2).testBit i = (f1.testBit i && f2.testBit i)) ∧
    static_cast_unsigned (operator_and f1 f2)
      = static_cast_unsigned f1 &&& static_cast_unsigned f2 := by
  refine ⟨testBit_operator_and f1 f2, ?_⟩
  simp only [static_cast_unsigned_eq, val_operator_and]

/-- C3: `update_piola` is exactly
`update_volume_elements | update_contravariant_transformation`, that is
`0x4800`; a flag set contains `update_piola` if and only if it contains both
constituents; and the composite carries no bit besides bits 11 and 14. -/
theorem update_piola_is_exact_union :
    update_piola = operator_or update_volume_elements update_contravariant_transformation ∧
    update_piola.val = 0x4800 ∧
    (∀ f : UpdateFlags, operator_and f update_piola = update_piola ↔
      (operator_and f update_volume_elements = update_volume_elements ∧
       operator_and f update_contravariant_transformation
         = update_contravariant_transformation)) ∧
    (∀ i, update_piola.testBit i = true ↔
      (update_volume_elements.testBit i = true ∨
       update_contravariant_transformation.testBit i = true)) ∧
    (∀ i, update_piola.testBit i = true ↔ (i = 11 ∨ i = 14)) := by
  have hp : update_piola
      = operator_or update_volume_elements update_contravariant_transformation := by
    decide
  have hbits : ∀ i, update_piola.testBit i = true ↔
      (update_volume_elements.testBit i = true ∨
       update_contravariant_transformation.testBit i = true) := by
    intro i
    rw [hp, testBit_operator_or]
    simp
  refine ⟨hp, by decide, ?_, hbits, ?_⟩
  · intro f
    simp only [contains_iff_bits]
    constructor
    · intro h
      exact ⟨fun i hi => h i ((hbits i).2 (Or.inl hi)),
             fun i hi => h i ((hbits i).2 (Or.inr hi))⟩
    · rintro ⟨h1, h2⟩ i hi
      rcases (hbits i).1 hi with h | h
      · exact h1 i h
      · exact h2 i h
  · intro i
    rw [hbits]
    have e1 : update_volume_elements.val = 2 ^ 14 := by decide
    have e2 : update_contravariant_transformation.val = 2 ^ 11 := by decide
    simp only [UpdateFlags.testBit, e1, e2, Nat.testBit_two_pow, decide_eq_true_eq]
    omega

/-- C4: after `f1 |= f2` the variable `f1` holds `f1_old | f2`: it has every
bit of `f2` and every bit of the old `f1` and no other bit; the value returned
by the operator is that new `f1`. -/
theorem operator_or_assign_effect (f1 f2 : UpdateFlags) :
    (operator_or_assign f1 f2).1 = operator_or f1 f2 ∧
    (∀ i, (operator_or_assign f1 f2).1.testBit i = (f1.testBit i || f2.testBit i)) ∧
    (operator_or_assign f1 f2).2 = (operator_or_assign f1 f2).1 := by
  refine ⟨rfl, ?_, rfl⟩
  intro i
  exact testBit_operator_or f1 f2 i

/-- C5: after `f1 &= f2` the variable `f1` holds `f1_old & f2`: every bit of
`f1` not also set in `f2` is cleared and every bit set in both is still set;
the value returned by the operator is that new `f1`. -/
theorem operator_and_assign_effect (f1 f2 : UpdateFlags) :
    (operator_and_assign f1 f2).1 = operator_and f1 f2 ∧
    (∀ i, (operator_and_assign f1 f2).1.testBit i = (f1.testBit i && f2.testBit i)) ∧
    (operator_and_assign f1 f2).2 = (operator_and_assign f1 f2).1 := by
  refine ⟨rfl, ?_, rfl⟩
  intro i
  exact testBit_operator_and f1 f2 i

/-- C6: union and intersection are closed over the named flags: the named
flags make up the mask `0x77FFF`, and when all set bits of `f1` and of `f2`
lie inside that mask then so do all set bits of `f1 | f2` and of `f1 & f2`.
Both operators are total functions into `UpdateFlags`, without an error case. -/
theorem operators_closed_in_named_mask (f1 f2 : UpdateFlags)
    (h1 : ∀ i, f1.testBit i = true → all_named_flags.testBit i = true)
    (h2 : ∀ i, f2.testBit i = true → all_named_flags.testBit i = true) :
    all_named_flags.val = 0x77FFF ∧
    (∀ i, (operator_or f1 f2).testBit i = true → all_named_flags.testBit i = true) ∧
    (∀ i, (operator_and f1 f2).testBit i = true → all_named_flags.testBit i = true) := by
  refine ⟨by decide, ?_, ?_⟩
  · intro i hi
    rw [testBit_operator_or, Bool.or_eq_true] at hi
    rcases hi with h | h
    · exact h1 i h
    · exact h2 i h
  · intro i hi
    rw [testBit_operator_and, Bool.and_eq_true] at hi
    exact h1 i hi.1

/-- Witness of C6 at `f1 = update_values | update_jacobians` and
`f2 = update_jacobians | update_support_points`. -/
theorem operators_closed_in_named_mask_witness :
    (∀ i, (operator_or update_values update_jacobians).testBit i = true →
      all_named_flags.testBit i = true) ∧
    (∀ i, (operator_or update_jacobians update_support_points).testBit i = true →
      all_named_flags.testBit i = true) ∧
    (all_named_flags.val = 0x77FFF ∧
     (∀ i, (operator_or (operator_or update_values update_jacobians)
        (operator_or update_jacobians update_support_points)).testBit i = true →
        all_named_flags.testBit i = true) ∧
     (∀ i, (operator_and (operator_or update_values update_jacobians)
        (operator_or update_jacobians update_support_points)).testBit i = true →
        all_named_flags.testBit i = true)) :=
  ⟨(contains_iff_bits all_named_flags _).1 (by decide),
   (contains_iff_bits all_named_flags _).1 (by decide),
   operators_closed_in_named_mask _ _
     ((contains_iff_bits all_named_flags _).1 (by decide))
     ((contains_iff_bits all_named_flags _).1 (by decide))⟩

/-! ## Flag resolution -/

theorem operator_or_assoc (a b c : UpdateFlags) :
    operator_or (operator_or a b) c = operator_or a (operator_or b c) := by
  apply UpdateFlags.eq_of_testBit_eq
  intro i
  simp only [testBit_operator_or, Bool.or_assoc]

theorem testBit_unclaimed_bits (n c : UpdateFlags) (i : Nat) :
    (unclaimed_bits n c).testBit i = (n.testBit i && !c.testBit i) := by
  have hlt : n.val ^^^ (n.val &&& c.val) < 2 ^ unsigned_bits :=
    Nat.xor_lt_two_pow n.isLt (Nat.and_lt_two_pow n.val c.isLt)
  simp only [unclaimed_bits, static_cast_UpdateFlags, UpdateFlags.testBit,
    Nat.mod_eq_of_lt hlt, Nat.testBit_xor, Nat.testBit_and]
  cases n.val.testBit i <;> cases c.val.testBit i <;> rfl

/-- The two parts of the resolution together are the accumulated `needed`. -/
theorem resolve_once_or_each (f : UpdateFlags) (E M : Collaborator) :
    operator_or (resolve f E M).once (resolve f E M).each = compute_update_flags f E M := by
  apply UpdateFlags.eq_of_testBit_eq
  intro i
  simp only [resolve, compute_update_flags, operator_or_assoc, testBit_operator_or,
    testBit_operator_and, testBit_unclaimed_bits]
  cases f.testBit i <;> cases (E.update_once f).testBit i <;>
    cases (E.update_each f).testBit i <;>
    cases (M.update_once (operator_or f (operator_or (E.update_once f)
      (E.update_each f)))).testBit i <;>
    cases (M.update_each (operator_or f (operator_or (E.update_once f)
      (E.update_each f)))).testBit i <;> rfl

theorem compute_update_flags_contains (f : UpdateFlags) (E M : Collaborator) :
    operator_and (compute_update_flags f E M) f = f := by
  rw [contains_iff_bits]
  intro i hi
  simp only [compute_update_flags, testBit_operator_or, hi, Bool.true_or]

/-- C7: flag resolution never drops a user-requested bit. For every user flag
set `f`, element `E` and mapping `M` the accumulated set (user flags, then the
element contributions, then the mapping contributions computed from the
enlarged set) contains `f`, it is the union of the `once` and `each` parts of
`resolve f E M`, and so that union contains every bit of `f`. -/
theorem resolve_never_drops_user_bit (f : UpdateFlags) (E M : Collaborator) :
    operator_and (compute_update_flags f E M) f = f ∧
    operator_or (resolve f E M).once (resolve f E M).each = compute_update_flags f E M ∧
    operator_and (operator_or (resolve f E M).once (resolve f E M).each) f = f ∧
    (∀ i, f.testBit i = true →
      ((resolve f E M).once.testBit i = true ∨ (resolve f E M).each.testBit i = true)) := by
  refine ⟨compute_update_flags_contains f E M, resolve_once_or_each f E M, ?_, ?_⟩
  · rw [resolve_once_or_each]
    exact compute_update_flags_contains f E M
  · intro i hi
    have h := (contains_iff_bits _ _).1 (compute_update_flags_contains f E M) i hi
    rw [← resolve_once_or_each, testBit_operator_or, Bool.or_eq_true] at h
    exact h

/-! ## The output operator -/

/-- C8, evaluated on the code: for `u = update_boundary_forms` the bit of the
named flag is set in `u`, yet the text written is only the header
`" UpdateFlags|"` and the flag name followed by a bar does not occur in it;
the same holds for `u = update_volume_elements`. A flag that has a branch,
such as `update_normal_vectors`, is written. -/
theorem operator_shl_omits_two_flags :
    (update_boundary_forms.testBit 3 = true ∧
     operator_shl "" update_boundary_forms = " UpdateFlags|" ∧
     ¬ occurs_in "boundary_forms|" (operator_shl "" update_boundary_forms)) ∧
    (update_volume_elements.testBit 14 = true ∧
     operator_shl "" update_volume_elements = " UpdateFlags|" ∧
     ¬ occurs_in "volume_elements|" (operator_shl "" update_volume_elements)) ∧
    operator_shl "" update_normal_vectors = " UpdateFlags|normal_vectors|" := by
  decide

/-! ## No difference among the provided operations -/

/-- Every expression over the provided operators is monotone in its second
argument, bit by bit. -/
theorem FlagExpr.eval_mono (e : FlagExpr) (a1 a2 b2 : UpdateFlags)
    (h : ∀ i, a2.testBit i = true → b2.testBit i = true) :
    ∀ i, (e.eval a1 a2).testBit i = true → (e.eval a1 b2).testBit i = true := by
  induction e with
  | f1 => intro i hi; exact hi
  | f2 => intro i hi; exact h i hi
  | const c => intro i hi; exact hi
  | or a b iha ihb =>
    intro i hi
    simp only [FlagExpr.eval, testBit_operator_or, Bool.or_eq_true] at hi ⊢
    rcases hi with hi | hi
    · exact Or.inl (iha i hi)
    · exact Or.inr (ihb i hi)
  | and a b iha ihb =>
    intro i hi
    simp only [FlagExpr.eval, testBit_operator_and, Bool.and_eq_true] at hi ⊢
    exact ⟨iha i hi.1, ihb i hi.2⟩

theorem update_default_bits_in (b : UpdateFlags) :
    ∀ i, update_default.testBit i = true → b.testBit i = true := by
  intro i hi
  simp [UpdateFlags.testBit, update_default] at hi

/-- C9 as stated fails: no operation that can be written with the provided
operators has, for every `f1` and `f2`, exactly the bits that are set in `f1`
and not set in `f2`. -/
theorem no_provided_difference :
    ¬ ∃ e : FlagExpr, ∀ f1 f2 : UpdateFlags, ∀ i,
        (e.eval f1 f2).testBit i = (f1.testBit i && !f2.testBit i) := by
  rintro ⟨e, he⟩
  have h0 : (e.eval update_values update_default).testBit 0 = true := by
    rw [he]; decide
  have h1 := FlagExpr.eval_mono e update_values update_default update_values
    (update_default_bits_in update_values) 0 h0
  rw [he] at h1
  exact absurd h1 (by decide)

/-- C9, amended: the provided operations are union and intersection only.
Whatever is written with them is monotone in the second argument: when every
bit of `f2` is also set in `g2`, every bit of the result at `f2` is also set in
the result at `g2`. Clearing the bits of the second argument is thus not among
them. -/
theorem provided_operations_monotone (e : FlagExpr) (f1 f2 g2 : UpdateFlags)
    (h : ∀ i, f2.testBit i = true → g2.testBit i = true) :
    ∀ i, (e.eval f1 f2).testBit i = true → (e.eval f1 g2).testBit i = true :=
  FlagExpr.eval_mono e f1 f2 g2 h

/-- Witness of the amended C9 at the expression `f1 & (f2 | update_hessians)`,
`f1 = update_values | update_gradients`, `f2 = update_values`,
`g2 = update_values | update_gradients` and bit 0. -/
theorem provided_operations_monotone_witness :
    (∀ i, update_values.testBit i = true →
      (operator_or update_values update_gradients).testBit i = true) ∧
    ((FlagExpr.and .f1 (.or .f2 (.const update_hessians))).eval
      (operator_or update_values update_gradients) update_values).testBit 0 = true ∧
    ((FlagExpr.and .f1 (.or .f2 (.const update_hessians))).eval
      (operator_or update_values update_gradients)
      (operator_or update_values update_gradients)).testBit 0 = true :=
  ⟨(contains_iff_bits _ update_values).1 (by decide), by decide,
   provided_operations_monotone _ _ _ _
     ((contains_iff_bits _ update_values).1 (by decide)) 0 (by decide)⟩

/-! ## Sizing of the geometric data store -/

namespace internal
namespace FEValues

/-- A flag with a single bit is tested by `flags & flag`: the result converts
to true exactly when the flag is contained in `flags`. -/
theorem toBool_and_single_bit (flags g : UpdateFlags) (k : Nat) (hg : g.val = 2 ^ k) :
    (operator_and flags g).toBool = decide (operator_and flags g = g) := by
  have hv : (operator_and flags g).val = if flags.val.testBit k then 2 ^ k else 0 := by
    rw [val_operator_and, hg]
    apply Nat.eq_of_testBit_eq
    intro i
    by_cases hik : k = i
    · subst hik
      cases hb : flags.val.testBit k <;> simp [hb]
    · cases hb : flags.val.testBit k <;> simp [Nat.testBit_two_pow, hik]
  have hpos : (2 : Nat) ^ k ≠ 0 := Nat.pos_iff_ne_zero.mp (Nat.two_pow_pos k)
  cases hb : flags.val.testBit k
  · simp only [hb, Bool.false_eq_true, if_false] at hv
    have hne : operator_and flags g ≠ g := by
      intro h
      rw [h, hg] at hv
      exact hpos hv
    simp [UpdateFlags.toBool, hv, hne]
  · simp only [hb, if_true] at hv
    have heq : operator_and flags g = g := UpdateFlags.eq_of_val_eq (by rw [hv, hg])
    simp [UpdateFlags.toBool, heq, hg, hpos]

theorem length_size_array {α : Type} [Inhabited α] (xs : List α) (n : Nat)
    (flag : UpdateFlags) :
    (size_array xs n flag).length = if flag.toBool = true then n else 0 := by
  unfold size_array
  by_cases hf : flag.toBool = true
  · by_cases hl : xs.length = n
    · simp [hf, hl]
    · simp [hf, hl]
  · simp [hf]

theorem length_size_array_single_bit {α : Type} [Inhabited α] (xs : List α) (n : Nat)
    (flags g : UpdateFlags) (k : Nat) (hg : g.val = 2 ^ k) :
    (size_array xs n (operator_and flags g)).length
      = if operator_and flags g = g then n else 0 := by
  rw [length_size_array, toBool_and_single_bit flags g k hg]
  by_cases h : operator_and flags g = g
  · simp [h]
  · simp [h]

/-- C10: after `initialize (q, flags)` every array whose governing flag is
contained in `flags` has length exactly `q` and every array whose governing
flag is not contained has length 0, for every `q`, every `flags` and every
previous content of the store; in particular with `update_jacobians` set and
`update_normal_vectors` not set, `jacobians` has length `q` and
`normal_vectors` has length 0. -/
theorem initialize_sizes_every_array {R J G I P T : Type}
    [Inhabited R] [Inhabited J] [Inhabited G] [Inhabited I] [Inhabited P] [Inhabited T]
    (d : MappingRelatedData R J G I P T) (q : Nat) (flags : UpdateFlags) :
    ((d.initialize_vectors q flags).JxW_values.length
      = if operator_and flags update_JxW_values = update_JxW_values then q else 0) ∧
    ((d.initialize_vectors q flags).jacobians.length
      = if operator_and flags update_jacobians = update_jacobians then q else 0) ∧
    ((d.initialize_vectors q flags).jacobian_grads.length
      = if operator_and flags update_jacobian_grads = update_jacobian_grads then q else 0) ∧
    ((d.initialize_vectors q flags).inverse_jacobians.length
      = if operator_and flags update_inverse_jacobians = update_inverse_jacobians
        then q else 0) ∧
    ((d.initialize_vectors q flags).quadrature_points.length
      = if operator_and flags update_quadrature_points = update_quadrature_points
        then q else 0) ∧
    ((d.initialize_vectors q flags).normal_vectors.length
      = if operator_and flags update_normal_vectors = update_normal_vectors then q else 0) ∧
    ((d.initialize_vectors q flags).boundary_forms.length
      = if operator_and flags update_boundary_forms = update_boundary_forms then q else 0) ∧
    (operator_and flags update_jacobians = update_jacobians →
      operator_and flags update_normal_vectors ≠ update_normal_vectors →
      (d.initialize_vectors q flags).jacobians.length = q ∧
      (d.initialize_vectors q flags).normal_vectors.length = 0) := by
  have hJxW := length_size_array_single_bit d.JxW_values q flags update_JxW_values 5 (by decide)
  have hjac := length_size_array_single_bit d.jacobians q flags update_jacobians 7 (by decide)
  have hgrad := length_size_array_single_bit d.jacobian_grads q flags
    update_jacobian_grads 8 (by decide)
  have hinv := length_size_array_single_bit d.inverse_jacobians q flags
    update_inverse_jacobians 9 (by decide)
  have hqp := length_size_array_single_bit d.quadrature_points q flags
    update_quadrature_points 4 (by decide)
  have hnv := length_size_array_single_bit d.normal_vectors q flags
    update_normal_vectors 6 (by decide)
  have hbf := length_size_array_single_bit d.boundary_forms q flags
    update_boundary_forms 3 (by decide)
  refine ⟨hJxW, hjac, hgrad, hinv, hqp, hnv, hbf, ?_⟩
  intro h1 h2
  constructor
  · show (size_array d.jacobians q (operator_and flags update_jacobians)).length = q
    rw [hjac, if_pos h1]
  · show (size_array d.normal_vectors q (operator_and flags update_normal_vectors)).length = 0
    rw [hnv, if_neg h2]

end FEValues
end internal

/-! ## Deprecated names and the empty flag set -/

/-- C12: every deprecated flag name denotes the same flag set as its
replacement: `update_face_normal_vectors` and `update_cell_normal_vectors` are
`update_normal_vectors`, `update_q_points` is `update_quadrature_points` and
`update_second_derivatives` is `update_hessians`; so for every flag set `f` the
containment test against the deprecated name gives the answer of the test
against the replacement. -/
theorem deprecated_names_equal_replacements :
    update_face_normal_vectors = update_normal_vectors ∧
    update_cell_normal_vectors = update_normal_vectors ∧
    update_q_points = update_quadrature_points ∧
    update_second_derivatives = update_hessians ∧
    (∀ f : UpdateFlags,
      (operator_and f update_face_normal_vectors).toBool
        = (operator_and f update_normal_vectors).toBool ∧
      (operator_and f update_cell_normal_vectors).toBool
        = (operator_and f update_normal_vectors).toBool ∧
      (operator_and f update_q_points).toBool
        = (operator_and f update_quadrature_points).toBool ∧
      (operator_and f update_second_derivatives).toBool
        = (operator_and f update_hessians).toBool) ∧
    (∀ f : UpdateFlags,
      (operator_and f update_face_normal_vectors = update_face_normal_vectors ↔
        operator_and f update_normal_vectors = update_normal_vectors) ∧
      (operator_and f update_cell_normal_vectors = update_cell_normal_vectors ↔
        operator_and f update_normal_vectors = update_normal_vectors) ∧
      (operator_and f update_q_points = update_q_points ↔
        operator_and f update_quadrature_points = update_quadrature_points) ∧
      (operator_and f update_second_derivatives = update_second_derivatives ↔
        operator_and f update_hessians = update_hessians)) := by
  have h1 : update_face_normal_vectors = update_normal_vectors := by decide
  have h2 : update_cell_normal_vectors = update_normal_vectors := by decide
  have h3 : update_q_points = update_quadrature_points := by decide
  have h4 : update_second_derivatives = update_hessians := by decide
  refine ⟨h1, h2, h3, h4, ?_, ?_⟩
  · intro f
    rw [h1, h2, h3, h4]
    exact ⟨rfl, rfl, rfl, rfl⟩
  · intro f
    rw [h1, h2, h3, h4]
    exact ⟨Iff.rfl, Iff.rfl, Iff.rfl, Iff.rfl⟩

theorem testBit_update_default (i : Nat) : update_default.testBit i = false := by
  simp [UpdateFlags.testBit, update_default]

/-- C13: `update_default` has all flags off: no bit of it is set, it contains
no flag (`update_default & g` is `update_default` for every `g`), it is the
identity of union (`f | update_default = f`, also from the left) and the
annihilator of intersection (`f & update_default = update_default`). -/
theorem update_default_all_off :
    (∀ i, update_default.testBit i = false) ∧
    (∀ g : UpdateFlags, operator_and update_default g = update_default) ∧
    (∀ g : UpdateFlags, (operator_and update_default g).toBool = false) ∧
    (∀ f : UpdateFlags, operator_or f update_default = f) ∧
    (∀ f : UpdateFlags, operator_or update_default f = f) ∧
    (∀ f : UpdateFlags, operator_and f update_default = update_default) := by
  have hand : ∀ g : UpdateFlags, operator_and update_default g = update_default := by
    intro g
    apply UpdateFlags.eq_of_testBit_eq
    intro i
    rw [testBit_operator_and, testBit_update_default, Bool.false_and]
  refine ⟨testBit_update_default, hand, ?_, ?_, ?_, ?_⟩
  · intro g
    rw [hand]
    decide
  · intro f
    apply UpdateFlags.eq_of_testBit_eq
    intro i
    rw [testBit_operator_or, testBit_update_default, Bool.or_false]
  · intro f
    apply UpdateFlags.eq_of_testBit_eq
    intro i
    rw [testBit_operator_or, testBit_update_default, Bool.false_or]
  · intro f
    apply UpdateFlags.eq_of_testBit_eq
    intro i
    rw [testBit_operator_and, testBit_update_default, Bool.and_false]

/-! ## Primitive flags are single bits -/

theorem primitive_flags_val_two_pow :
    ∀ g ∈ primitive_flags, ∃ k, k < unsigned_bits ∧ g.val = 2 ^ k := by
  decide

theorem testBit_foldl_operator_or (ops : List UpdateFlags) (init : UpdateFlags) (i : Nat) :
    (ops.foldl operator_or init).testBit i
      = (init.testBit i || ops.any (fun g => g.testBit i)) := by
  induction ops generalizing init with
  | nil => simp
  | cons g gs ih =>
    rw [List.foldl_cons, ih, testBit_operator_or, List.any_cons, Bool.or_assoc]

theorem testBit_of_val_two_pow (g : UpdateFlags) (k : Nat) (hg : g.val = 2 ^ k) (i : Nat) :
    g.testBit i = true ↔ i = k := by
  simp only [UpdateFlags.testBit, hg, Nat.testBit_two_pow, decide_eq_true_eq]
  exact eq_comm

/-- A union of primitive flags has the bit of the primitive flag `p` set
exactly when `p` is one of the operands. -/
theorem union_bit_iff_operand (ops : List UpdateFlags) (p : UpdateFlags) (k : Nat)
    (hops : ∀ g ∈ ops, g ∈ primitive_flags) (hk : p.val = 2 ^ k) :
    (ops.foldl operator_or update_default).testBit k = true ↔ p ∈ ops := by
  rw [testBit_foldl_operator_or, testBit_update_default, Bool.false_or, List.any_eq_true]
  constructor
  · rintro ⟨g, hg, hbit⟩
    obtain ⟨j, _, hj⟩ := primitive_flags_val_two_pow g (hops g hg)
    have hkj : k = j := (testBit_of_val_two_pow g j hj k).1 hbit
    have hgp : g = p := UpdateFlags.eq_of_val_eq (by rw [hj, hk, hkj])
    rw [← hgp]
    exact hg
  · intro hp
    exact ⟨p, hp, (testBit_of_val_two_pow p k hk k).2 rfl⟩

/-- C14: every flag test is one bit check. Each named flag other than
`update_default`, the deprecated aliases and `update_piola` has exactly one bit
set; flags with different names are different and have no bit in common (their
intersection is `update_default`); so a union of primitive flags contains a
given primitive flag if and only if that flag is one of the operands. -/
theorem primitive_flag_test_is_one_bit (ops : List UpdateFlags) (p : UpdateFlags)
    (hops : ∀ g ∈ ops, g ∈ primitive_flags) (hp : p ∈ primitive_flags) :
    (∀ g ∈ primitive_flags, ∃ k, k < unsigned_bits ∧ ∀ i, g.testBit i = true ↔ i = k) ∧
    primitive_flags.Nodup ∧
    primitive_flags.Pairwise (fun a b => operator_and a b = update_default) ∧
    (operator_and (ops.foldl operator_or update_default) p = p ↔ p ∈ ops) ∧
    ((operator_and (ops.foldl operator_or update_default) p).toBool = true ↔ p ∈ ops) := by
  obtain ⟨k, _, hk⟩ := primitive_flags_val_two_pow p hp
  have hcontains : operator_and (ops.foldl operator_or update_default) p = p ↔ p ∈ ops := by
    rw [contains_iff_bits, ← union_bit_iff_operand ops p k hops hk]
    constructor
    · intro h
      exact h k ((testBit_of_val_two_pow p k hk k).2 rfl)
    · intro h i hi
      rw [(testBit_of_val_two_pow p k hk i).1 hi]
      exact h
  refine ⟨?_, by decide, by decide, hcontains, ?_⟩
  · intro g hg
    obtain ⟨j, hj32, hj⟩ := primitive_flags_val_two_pow g hg
    exact ⟨j, hj32, testBit_of_val_two_pow g j hj⟩
  · rw [internal.FEValues.toBool_and_single_bit _ p k hk, decide_eq_true_eq]
    exact hcontains

/-- Witness of C14 at the union `update_values | update_jacobians` and the
flag `update_jacobians`. -/
theorem primitive_flag_test_is_one_bit_witness :
    (∀ g ∈ [update_values, update_jacobians], g ∈ primitive_flags) ∧
    update_jacobians ∈ primitive_flags ∧
    (operator_and ([update_values, update_jacobians].foldl operator_or update_default)
        update_jacobians = update_jacobians ↔
      update_jacobians ∈ [update_values, update_jacobians]) :=
  ⟨by decide, by decide,
   (primitive_flag_test_is_one_bit [update_values, update_jacobians] update_jacobians
      (by decide) (by decide)).2.2.2.1⟩

/-! ## The row-compaction table -/

namespace internal
namespace FEValues

theorem length_component_rows (r : Nat) (p : List Bool) :
    (component_rows r p).length = p.length := by
  induction p generalizing r with
  | nil => rfl
  | cons b cs ih => cases b <;> simp [component_rows, ih]

theorem getElem?_component_rows (r : Nat) (p : List Bool) (c : Nat) :
    (component_rows r p)[c]? = (p[c]?).map (fun b =>
      if b = true then r + (p.take c).count true else invalid_unsigned_int) := by
  induction p generalizing r c with
  | nil => simp [component_rows]
  | cons b cs ih =>
    cases c with
    | zero => cases b <;> simp [component_rows]
    | succ c =>
      cases b
      · simp [component_rows, ih]
      · simp only [component_rows, List.getElem?_cons_succ, ih, List.take_succ_cons,
          List.count_cons_self]
        cases cs[c]? with
        | none => rfl
        | some b =>
          simp only [Option.map_some']
          congr 1
          split
          · omega
          · rfl

theorem length_build_rows (n r : Nat) (ps : List (List Bool))
    (h : ∀ p ∈ ps, p.length = n) : (build_rows r ps).length = ps.length * n := by
  induction ps generalizing r with
  | nil => simp [build_rows]
  | cons p ps ih =>
    have hp : p.length = n := h p (List.mem_cons_self p ps)
    have hps : ∀ q ∈ ps, q.length = n := fun q hq => h q (List.mem_cons_of_mem p hq)
    simp only [build_rows, List.length_append, length_component_rows, hp, ih _ hps,
      List.length_cons]
    rw [Nat.add_mul, Nat.one_mul, Nat.add_comm]

theorem getElem?_build_rows (n r : Nat) (ps : List (List Bool))
    (h : ∀ p ∈ ps, p.length = n) (i c : Nat) (hi : i < ps.length) (hc : c < n) :
    (build_rows r ps)[i * n + c]?
      = (component_rows (r + rows_before ps i) (ps.getD i []))[c]? := by
  induction ps generalizing r i with
  | nil => simp at hi
  | cons p ps ih =>
    have hp : p.length = n := h p (List.mem_cons_self p ps)
    have hps : ∀ q ∈ ps, q.length = n := fun q hq => h q (List.mem_cons_of_mem p hq)
    cases i with
    | zero =>
      have hlt : c < (component_rows r p).length := by
        rw [length_component_rows, hp]; exact hc
      simp only [build_rows, Nat.zero_mul, Nat.zero_add, rows_before, List.take_zero,
        List.map_nil, List.sum_nil, Nat.add_zero]
      rw [List.getElem?_append_left hlt]
      rfl
    | succ i =>
      have hi2 : i < ps.length := by simpa using hi
      have hle : (component_rows r p).length ≤ (i + 1) * n + c := by
        rw [length_component_rows, hp, Nat.add_mul, Nat.one_mul]; omega
      have hsub : (i + 1) * n + c - (component_rows r p).length = i * n + c := by
        rw [length_component_rows, hp, Nat.add_mul, Nat.one_mul]; omega
      simp only [build_rows]
      rw [List.getElem?_append_right hle, hsub, ih _ hps i hi2]
      have hrb : rows_before (p :: ps) (i + 1) = p.count true + rows_before ps i := by
        simp [rows_before]
      rw [hrb, Nat.add_assoc]
      rfl

theorem getD_mem_patterns (ps : List (List Bool)) (i : Nat) (hi : i < ps.length) :
    ps.getD i [] ∈ ps := by
  rw [List.getD_eq_getElem?_getD, List.getElem?_eq_getElem hi]
  exact List.getElem_mem hi

/-- The entry of shape function `i`, component `c`: the row counted in index
order for a non-zero component, the sentinel for a zero component. -/
theorem entry_build_rows (n : Nat) (ps : List (List Bool))
    (h : ∀ p ∈ ps, p.length = n) (i c : Nat) (hi : i < ps.length) (hc : c < n) :
    (build_rows 0 ps)[i * n + c]? = some
      (if (ps.getD i []).getD c false = true
        then rows_before ps i + ((ps.getD i []).take c).count true
        else invalid_unsigned_int) := by
  have hlen : c < (ps.getD i []).length := by
    rw [h _ (getD_mem_patterns ps i hi)]; exact hc
  rw [getElem?_build_rows n 0 ps h i c hi hc, getElem?_component_rows,
    List.getD_eq_getElem?_getD (ps.getD i []) c false, List.getElem?_eq_getElem hlen,
    Nat.zero_add]
  rfl

theorem count_take_le (p : List Bool) (c : Nat) : (p.take c).count true ≤ c :=
  Nat.le_trans (List.count_le_length true (p.take c))
    (by rw [List.length_take]; exact Nat.min_le_left c p.length)

theorem rows_before_le (n : Nat) (ps : List (List Bool))
    (h : ∀ p ∈ ps, p.length = n) (i : Nat) : rows_before ps i ≤ i * n := by
  induction ps generalizing i with
  | nil => simp [rows_before]
  | cons p ps ih =>
    cases i with
    | zero => simp [rows_before]
    | succ i =>
      have hp : p.length = n := h p (List.mem_cons_self p ps)
      have hps : ∀ q ∈ ps, q.length = n := fun q hq => h q (List.mem_cons_of_mem p hq)
      have hrb : rows_before (p :: ps) (i + 1) = p.count true + rows_before ps i := by
        simp [rows_before]
      have hcount : p.count true ≤ n := hp ▸ List.count_le_length true p
      have := ih hps i
      rw [hrb, Nat.add_mul, Nat.one_mul]
      omega

theorem rows_before_of_primitive (ps : List (List Bool))
    (h : ∀ p ∈ ps, p.count true = 1) (i : Nat) (hi : i ≤ ps.length) :
    rows_before ps i = i := by
  induction ps generalizing i with
  | nil =>
    have : i = 0 := by simpa using hi
    subst this
    simp [rows_before]
  | cons p ps ih =>
    cases i with
    | zero => simp [rows_before]
    | succ i =>
      have hp : p.count true = 1 := h p (List.mem_cons_self p ps)
      have hps : ∀ q ∈ ps, q.count true = 1 := fun q hq => h q (List.mem_cons_of_mem p hq)
      have hi2 : i ≤ ps.length := by simpa using hi
      have hrb : rows_before (p :: ps) (i + 1) = p.count true + rows_before ps i := by
        simp [rows_before]
      rw [hrb, hp, ih hps i hi2, Nat.add_comm]

theorem count_take_eq_zero (p : List Bool) (c : Nat) (hc : p[c]? = some true)
    (h1 : p.count true = 1) : (p.take c).count true = 0 := by
  have hlt : c < p.length := by
    rcases Nat.lt_or_ge c p.length with h | h
    · exact h
    · rw [List.getElem?_eq_none h] at hc; cases hc
  have hget : p[c] = true := by
    rw [List.getElem?_eq_getElem hlt] at hc
    exact Option.some.inj hc
  have hsplit : (p.take c).count true + (p.drop c).count true = p.count true := by
    rw [← List.count_append, List.take_append_drop]
  rw [List.drop_eq_getElem_cons hlt, hget, List.count_cons_self, h1] at hsplit
  omega

theorem nonzero_component_unique (p : List Bool) (c d : Nat) (hc : p[c]? = some true)
    (hd : p[d]? = some true) (h1 : p.count true = 1) : c = d := by
  have key : ∀ a b : Nat, a < b → p[a]? = some true → p[b]? = some true → False := by
    intro a b hab ha hb
    have hzero := count_take_eq_zero p b hb h1
    have hmem : true ∈ p.take b :=
      List.getElem?_mem ((List.getElem?_take_of_lt hab).trans ha)
    exact absurd (List.count_pos_iff.2 hmem) (by omega)
  rcases Nat.lt_trichotomy c d with h | h | h
  · exact (key c d h hc hd).elim
  · exact h
  · exact (key d c h hd hc).elim

theorem make_table_of_consistent (fe : FiniteElement)
    (hpattern : ∀ p ∈ fe.nonzero_components, p.length = fe.n_components) :
    make_shape_function_to_row_table fe = some (build_rows 0 fe.nonzero_components) := by
  unfold make_shape_function_to_row_table
  rw [if_pos]
  rw [List.all_eq_true]
  intro p hp
  simp [hpattern p hp]

/-- A row number of the table is below the sentinel when the table size fits
`unsigned int`. -/
theorem row_lt_invalid (n : Nat) (ps : List (List Bool))
    (h : ∀ p ∈ ps, p.length = n) (hsize : ps.length * n < 2 ^ unsigned_bits)
    (i c : Nat) (hi : i < ps.length) (hc : c < n) :
    rows_before ps i + ((ps.getD i []).take c).count true < invalid_unsigned_int := by
  have h1 := rows_before_le n ps h i
  have h2 := count_take_le (ps.getD i []) c
  have h3 : (i + 1) * n ≤ ps.length * n := Nat.mul_le_mul_right n hi
  rw [Nat.add_mul, Nat.one_mul] at h3
  unfold invalid_unsigned_int
  generalize 2 ^ unsigned_bits = M at hsize ⊢
  generalize ps.length * n = L at hsize h3
  generalize i * n = K at h1 h3
  omega

end FEValues
end internal

end dealii
